import Mathlib

/- Verification development for the ydc-agent gateway core.

   The JavaScript sources are shallowly embedded: JS strings are modelled as
   `List Char` (sequences of code points; all inputs in the claims are ASCII,
   where JS UTF-16 lengths and code-point lengths agree), fallible operations
   return `Option`, and stateful loops become folds over explicit state.
   Wall-clock values (timestamps, `Date.now()` ids, timers) are not modelled;
   fields derived from them are omitted from the embedded record types. -/

namespace Ydc

/-- Code points of a Lean string literal, used to write JS string constants. -/
def chars (s : String) : List Char := s.data

/-! ## Line reassembly (shared by both streaming handlers)

The JS loop does `buffer += decoder.decode(value); const lines = buffer.split('\n');
buffer = lines.pop() || '';` and then processes each element of `lines`.
`splitBuffer cs` returns exactly that pair: the complete lines (everything
before the last newline, split on `'\n'`) and the retained final,
possibly-incomplete line. -/

/-- Model of `buffer.split('\n')` followed by `lines.pop()`: returns
(complete lines, retained tail after the last newline). -/
def splitBuffer : List Char → List (List Char) × List Char
  | [] => ([], [])
  | c :: rest =>
    if c = '\n' then
      let r := splitBuffer rest
      ([] :: r.1, r.2)
    else
      match splitBuffer rest with
      | ([], last) => ([], c :: last)
      | (l :: ls, last) => ((c :: l) :: ls, last)

/-! ## JSON values and a model of `JSON.parse`

The upstream records are parsed with `JSON.parse`. We embed a standard
recursive-descent JSON parser (fuel-indexed for termination). Numeric
lexemes are kept raw; the gateway code never reads numeric fields of
upstream records. -/

inductive Json where
  | null
  | bool (b : Bool)
  | num (raw : List Char)
  | str (s : List Char)
  | arr (elems : List Json)
  | obj (members : List (List Char × Json))

/-- JSON whitespace skipping. -/
def skipWs : List Char → List Char
  | c :: rest =>
    if c = ' ' ∨ c = '\t' ∨ c = '\n' ∨ c = '\r' then skipWs rest else c :: rest
  | [] => []

def hexVal (c : Char) : Option Nat :=
  if '0' ≤ c ∧ c ≤ '9' then some (c.toNat - '0'.toNat)
  else if 'a' ≤ c ∧ c ≤ 'f' then some (c.toNat - 'a'.toNat + 10)
  else if 'A' ≤ c ∧ c ≤ 'F' then some (c.toNat - 'A'.toNat + 10)
  else none

/-- Body of a JSON string literal, after the opening quote. -/
def parseStringBody : List Char → Option (List Char × List Char)
  | [] => none
  | '"' :: rest => some ([], rest)
  | '\\' :: 'u' :: h1 :: h2 :: h3 :: h4 :: rest =>
    match hexVal h1, hexVal h2, hexVal h3, hexVal h4 with
    | some a, some b, some c, some d =>
      (parseStringBody rest).map
        (fun p => (Char.ofNat (((a * 16 + b) * 16 + c) * 16 + d) :: p.1, p.2))
    | _, _, _, _ => none
  | '\\' :: e :: rest =>
    let esc : Option Char :=
      if e = '"' then some '"'
      else if e = '\\' then some '\\'
      else if e = '/' then some '/'
      else if e = 'n' then some '\n'
      else if e = 't' then some '\t'
      else if e = 'r' then some '\r'
      else if e = 'b' then some (Char.ofNat 8)
      else if e = 'f' then some (Char.ofNat 12)
      else none
    match esc with
    | some c => (parseStringBody rest).map (fun p => (c :: p.1, p.2))
    | none => none
  | c :: rest => (parseStringBody rest).map (fun p => (c :: p.1, p.2))

def isJsonDigit (c : Char) : Bool := '0' ≤ c ∧ c ≤ '9'

/-- Longest digit run at the front. -/
def takeDigits : List Char → List Char × List Char
  | c :: rest =>
    if isJsonDigit c then
      let r := takeDigits rest
      (c :: r.1, r.2)
    else ([], c :: rest)
  | [] => ([], [])

/-- A JSON number lexeme (kept raw): int part, optional fraction, optional exponent. -/
def parseNumber (cs : List Char) : Option (List Char × List Char) :=
  let (neg, cs1) := match cs with
    | '-' :: rest => (chars "-", rest)
    | _ => ([], cs)
  let (intPart, cs2) := takeDigits cs1
  if intPart = [] then none
  else
    let (fracPart, cs3) := match cs2 with
      | '.' :: rest =>
        let r := takeDigits rest
        if r.1 = [] then ([], '.' :: rest) else (('.' :: r.1 : List Char), r.2)
      | _ => ([], cs2)
    let (expPart, cs4) := match cs3 with
      | e :: rest =>
        if e = 'e' ∨ e = 'E' then
          let (sgn, rest2) := match rest with
            | '+' :: r2 => (chars "+", r2)
            | '-' :: r2 => (chars "-", r2)
            | _ => ([], rest)
          let r := takeDigits rest2
          if r.1 = [] then ([], cs3) else ((e :: (sgn ++ r.1) : List Char), r.2)
        else ([], cs3)
      | _ => ([], cs3)
    some (neg ++ intPart ++ fracPart ++ expPart, cs4)

mutual

/-- Fuel-indexed JSON value parser. -/
def parseValue : Nat → List Char → Option (Json × List Char)
  | 0, _ => none
  | fuel + 1, cs =>
    match skipWs cs with
    | [] => none
    | c :: rest =>
      if c = '"' then
        (parseStringBody rest).map (fun p => (Json.str p.1, p.2))
      else if c = '{' then
        parseMembers fuel (skipWs rest) true
      else if c = '[' then
        parseElements fuel (skipWs rest) true
      else if c = 't' then
        match rest with
        | 'r' :: 'u' :: 'e' :: r2 => some (Json.bool true, r2)
        | _ => none
      else if c = 'f' then
        match rest with
        | 'a' :: 'l' :: 's' :: 'e' :: r2 => some (Json.bool false, r2)
        | _ => none
      else if c = 'n' then
        match rest with
        | 'u' :: 'l' :: 'l' :: r2 => some (Json.null, r2)
        | _ => none
      else
        (parseNumber (c :: rest)).map (fun p => (Json.num p.1, p.2))

/-- Object members after `{` (first = true) or after a comma. -/
def parseMembers : Nat → List Char → Bool → Option (Json × List Char)
  | 0, _, _ => none
  | fuel + 1, cs, first =>
    match skipWs cs with
    | '}' :: rest =>
      if first then some (Json.obj [], rest) else none
    | '"' :: rest =>
      match parseStringBody rest with
      | none => none
      | some (key, afterKey) =>
        match skipWs afterKey with
        | ':' :: afterColon =>
          match parseValue fuel afterColon with
          | none => none
          | some (v, afterVal) =>
            match skipWs afterVal with
            | ',' :: afterComma =>
              match parseMembers fuel afterComma false with
              | some (Json.obj ms, r2) => some (Json.obj ((key, v) :: ms), r2)
              | _ => none
            | '}' :: r2 => some (Json.obj [(key, v)], r2)
            | _ => none
        | _ => none
    | _ => none

/-- Array elements after `[` (first = true) or after a comma. -/
def parseElements : Nat → List Char → Bool → Option (Json × List Char)
  | 0, _, _ => none
  | fuel + 1, cs, first =>
    match skipWs cs with
    | ']' :: rest =>
      if first then some (Json.arr [], rest) else none
    | cs2 =>
      match parseValue fuel cs2 with
      | none => none
      | some (v, afterVal) =>
        match skipWs afterVal with
        | ',' :: afterComma =>
          match parseElements fuel afterComma false with
          | some (Json.arr vs, r2) => some (Json.arr (v :: vs), r2)
          | _ => none
        | ']' :: r2 => some (Json.arr [v], r2)
        | _ => none

end

/-- Model of `JSON.parse`: parse one value, demand only whitespace after it. -/
def jsonParse (cs : List Char) : Option Json :=
  match parseValue (2 * cs.length + 2) cs with
  | some (v, rest) => if skipWs rest = [] then some v else none
  | none => none

/-- Member access `obj[k]` as produced by `JSON.parse` (duplicate keys: last wins). -/
def Json.getField : Json → List Char → Option Json
  | Json.obj ms, k => ms.foldl (fun acc m => if m.1 = k then some m.2 else acc) none
  | _, _ => none

def Json.asStr : Json → Option (List Char)
  | Json.str s => some s
  | _ => none

/-- String-valued member access; `none` for absent or non-string members
(a non-string value never compares `===`-equal to a string literal). -/
def getStrField (j : Json) (k : List Char) : Option (List Char) :=
  (j.getField k).bind Json.asStr

/-! ## Upstream stream demultiplexer (processStream in the Anthropic route)

Embeds the body of the `while` loop of `processStream`: each complete
`data: ` line is JSON-parsed; a delta-style record
(`type === 'response.output_text.delta'` under a `message.answer` envelope
with truthy `delta`) appends and emits the delta verbatim; a record with a
top-level `output` list emits, for each `message.answer` item with truthy
`text`, `item.text.slice(fullContent.length)` when non-empty and replaces
`fullContent` by `item.text`. `===` string comparisons and JS truthiness of
string fields (non-empty) are embedded for string-valued fields, the only
kind the upstream record shapes carry. -/

/-- `parsed.response?.type` -/
def responseTypeOf (parsed : Json) : Option (List Char) :=
  (parsed.getField (chars "response")).bind (fun r => getStrField r (chars "type"))

/-- `parsed.response?.delta` -/
def responseDeltaOf (parsed : Json) : Option (List Char) :=
  (parsed.getField (chars "response")).bind (fun r => getStrField r (chars "delta"))

/-- Body of the `for (const item of parsed.output)` loop: one item applied
to the running `(fullContent, emitted fragments)` pair. -/
def processOutputItem (item : Json) (acc : List Char × List (List Char)) :
    List Char × List (List Char) :=
  match getStrField item (chars "type"), getStrField item (chars "text") with
  | some ty, some tx =>
    if ty = chars "message.answer" ∧ tx ≠ [] then
      let newText := tx.drop acc.1.length
      if newText ≠ [] then (tx, acc.2 ++ [newText]) else acc
    else acc
  | _, _ => acc

/-- The whole `for (const item of parsed.output)` loop. -/
def processOutputItems : List Json → List Char × List (List Char) →
    List Char × List (List Char)
  | [], acc => acc
  | item :: rest, acc => processOutputItems rest (processOutputItem item acc)

/-- The delta-style branch of the record handler. -/
def processDeltaBranch (parsed : Json) (fullContent : List Char) :
    List Char × List (List Char) :=
  match getStrField parsed (chars "type"), responseTypeOf parsed,
      responseDeltaOf parsed with
  | some t, some rt, some d =>
    if t = chars "response.output_text.delta" ∧ rt = chars "message.answer" ∧
        d ≠ [] then
      (fullContent ++ d, [d])
    else (fullContent, [])
  | _, _, _ => (fullContent, [])

/-- Processing of one parsed record: the delta-style branch, then the
full-output (replacement-style) branch. Returns the updated `fullContent`
and the fragments written by `createContentBlockDeltaEvent`. -/
def processRecord (parsed : Json) (fullContent : List Char) :
    List Char × List (List Char) :=
  let step1 := processDeltaBranch parsed fullContent
  match parsed.getField (chars "output") with
  | some (Json.arr items) => processOutputItems items step1
  | _ => step1

/-- One complete line: only `data: ` lines are relevant, the `[DONE]`
sentinel is skipped, malformed JSON is swallowed. -/
def processLine (line : List Char) (fullContent : List Char) :
    List Char × List (List Char) :=
  if (chars "data: ").isPrefixOf line then
    let data := line.drop 6
    if data = chars "[DONE]" then (fullContent, [])
    else
      match jsonParse data with
      | some parsed => processRecord parsed fullContent
      | none => (fullContent, [])
  else (fullContent, [])

/-- All complete lines of one network chunk, in order. -/
def processLines : List (List Char) → List Char → List Char × List (List Char)
  | [], fullContent => (fullContent, [])
  | line :: rest, fullContent =>
    let (fc1, out1) := processLine line fullContent
    let (fc2, out2) := processLines rest fc1
    (fc2, out1 ++ out2)

/-- Demultiplexer state: the line-reassembly buffer and the accumulated text. -/
structure DemuxState where
  buffer : List Char
  fullContent : List Char
deriving DecidableEq

/-- One iteration of the read loop: append the decoded chunk, split on
newline, process the complete lines, retain the final incomplete line. -/
def feedChunk (st : DemuxState) (chunk : List Char) :
    DemuxState × List (List Char) :=
  let (lines, rest) := splitBuffer (st.buffer ++ chunk)
  let (fc, frags) := processLines lines st.fullContent
  (⟨rest, fc⟩, frags)

/-- The whole read loop over a finite chunk sequence, from the initial
empty buffers; returns the final state and all emitted fragments. -/
def demuxChunks (chunks : List (List Char)) : DemuxState × List (List Char) :=
  chunks.foldl
    (fun acc chunk =>
      let (st, frags) := feedChunk acc.1 chunk
      (st, acc.2 ++ frags))
    (⟨[], []⟩, [])

/-! ## Typed-block (Anthropic) re-emitter

The SSE records written by `processStream` via lib/anthropic-mapper.js.
Each `create*Event` helper writes one `event: <name>\ndata: <json>\n\n`
record; the embedding keeps the record kind and the payload fields the
spec speaks about (content list, usage counts, block index, delta text,
stop reason, output token count). Clock-derived `id` fields are omitted. -/

inductive AnthropicEvent where
  | messageStart (conversationId : Option (List Char)) (content : List (List Char))
      (inputTokens outputTokens : Nat)
  | contentBlockStart (index : Nat) (text : List Char)
  | contentBlockDelta (index : Nat) (text : List Char)
  | contentBlockStop (index : Nat)
  | messageDelta (stopReason : List Char) (outputTokens : Nat)
  | messageStop
deriving DecidableEq

/-- `createMessageStartEvent`: empty content list, zero usage counts,
optional conversation id carried in metadata. -/
def createMessageStartEvent (conversationId : Option (List Char)) : AnthropicEvent :=
  AnthropicEvent.messageStart conversationId [] 0 0

/-- `createContentBlockStartEvent`: given index, empty text. -/
def createContentBlockStartEvent (index : Nat) : AnthropicEvent :=
  AnthropicEvent.contentBlockStart index []

/-- `createContentBlockDeltaEvent`. -/
def createContentBlockDeltaEvent (text : List Char) (index : Nat) : AnthropicEvent :=
  AnthropicEvent.contentBlockDelta index text

/-- `createContentBlockStopEvent`. -/
def createContentBlockStopEvent (index : Nat) : AnthropicEvent :=
  AnthropicEvent.contentBlockStop index

/-- `createMessageDeltaEvent`: stop reason is always `end_turn`. -/
def createMessageDeltaEvent (outputTokens : Nat) : AnthropicEvent :=
  AnthropicEvent.messageDelta (chars "end_turn") outputTokens

/-- `createMessageStopEvent`. -/
def createMessageStopEvent : AnthropicEvent := AnthropicEvent.messageStop

/-- How the in-flight upstream stream ends: normal completion, or a
transport/processing error thrown while reading (caught by the handler). -/
inductive StreamOutcome where
  | success
  | error (message : List Char)

/-- The full event sequence `processStream` writes to the response sink for
a streaming call, and whether `res.end()` was called. The preamble
(`message_start`, `content_block_start`) is written before the read loop;
each fragment is written as a `content_block_delta`; the closing events
follow either the normal path (token estimate `floor(length / 4)`) or the
catch path (an `Error: <message>` delta, then the closing events with a
zero token count). -/
def processStream (conversationId : Option (List Char))
    (chunks : List (List Char)) (outcome : StreamOutcome) :
    List AnthropicEvent × Bool :=
  let (st, frags) := demuxChunks chunks
  let preamble := [createMessageStartEvent conversationId,
    createContentBlockStartEvent 0]
  let deltas := frags.map (fun f => createContentBlockDeltaEvent f 0)
  match outcome with
  | StreamOutcome.success =>
    (preamble ++ deltas ++ [createContentBlockStopEvent 0,
      createMessageDeltaEvent (st.fullContent.length / 4),
      createMessageStopEvent], true)
  | StreamOutcome.error msg =>
    (preamble ++ deltas ++ [createContentBlockDeltaEvent (chars "Error: " ++ msg) 0,
      createContentBlockStopEvent 0, createMessageDeltaEvent 0,
      createMessageStopEvent], true)

/-! ## Flat-delta (OpenAI) re-emitter

`handleStreamingResponse` in the chat-completions route. Its read loop
only handles the delta-style record shape (no `output` fallback branch and
no explicit `[DONE]` check: `JSON.parse('[DONE]')` throws and the line is
skipped by the catch). Each matched delta is written as one
`createStreamChunk` record; the `finally` block always writes one terminal
chunk with `finish_reason: 'stop'`, the literal `data: [DONE]` sentinel,
and ends the response. -/

/-- What gets written to the flat-delta response sink: a chunk record from
`createStreamChunk` (delta content absent when the content argument is
falsy), the raw error record from the catch block, or the `[DONE]`
sentinel line. Clock-derived `id`/`created` fields are omitted. -/
inductive OpenAIStreamItem where
  | chunk (model : List Char) (deltaContent : Option (List Char))
      (finishReason : Option (List Char))
  | errorRecord (message : List Char)
  | doneSentinel
deriving DecidableEq

/-- `createStreamChunk(model, content, finishReason)`: the `delta` member
is `{ content }` for truthy content and `{}` otherwise. -/
def createStreamChunk (model : List Char) (content : Option (List Char))
    (finishReason : Option (List Char)) : OpenAIStreamItem :=
  OpenAIStreamItem.chunk model
    (match content with
     | some c => if c = [] then none else some c
     | none => none)
    finishReason

/-- One complete line of the chat-completions read loop: only the
delta-style branch exists here. Returns the updated `fullContent` and the
emitted fragment, if any. -/
def processLineOpenAI (line : List Char) (fullContent : List Char) :
    List Char × List (List Char) :=
  if (chars "data: ").isPrefixOf line then
    match jsonParse (line.drop 6) with
    | some parsed => processDeltaBranch parsed fullContent
    | none => (fullContent, [])
  else (fullContent, [])

def processLinesOpenAI : List (List Char) → List Char →
    List Char × List (List Char)
  | [], fullContent => (fullContent, [])
  | line :: rest, fullContent =>
    let (fc1, out1) := processLineOpenAI line fullContent
    let (fc2, out2) := processLinesOpenAI rest fc1
    (fc2, out1 ++ out2)

def feedChunkOpenAI (st : DemuxState) (chunk : List Char) :
    DemuxState × List (List Char) :=
  let (lines, rest) := splitBuffer (st.buffer ++ chunk)
  let (fc, frags) := processLinesOpenAI lines st.fullContent
  (⟨rest, fc⟩, frags)

def demuxChunksOpenAI (chunks : List (List Char)) :
    DemuxState × List (List Char) :=
  chunks.foldl
    (fun acc chunk =>
      let (st, frags) := feedChunkOpenAI acc.1 chunk
      (st, acc.2 ++ frags))
    (⟨[], []⟩, [])

/-- Everything `handleStreamingResponse` writes to the sink, and whether
`res.end()` was called: one delta chunk per fragment; on a caught stream
error one raw error record; then, from the `finally` block in either case,
the terminal chunk with `finish_reason: 'stop'`, the `[DONE]` sentinel,
and the end of the response. -/
def handleStreamingResponse (model : List Char) (chunks : List (List Char))
    (outcome : StreamOutcome) : List OpenAIStreamItem × Bool :=
  let (_, frags) := demuxChunksOpenAI chunks
  let deltaChunks := frags.map (fun f => createStreamChunk model (some f) none)
  let terminal := [createStreamChunk model none (some (chars "stop")),
    OpenAIStreamItem.doneSentinel]
  match outcome with
  | StreamOutcome.success => (deltaChunks ++ terminal, true)
  | StreamOutcome.error msg =>
    (deltaChunks ++
      [OpenAIStreamItem.errorRecord (chars "Streaming error: " ++ msg)] ++
      terminal, true)

/-! ## Conversation store: per-conversation turn-count eviction

The in-memory backend of `addMessageToConversation` (identical in index.js
and the conversation-store module): when the list already holds
`MAX_MESSAGES_PER_CONVERSATION` turns, keep a found `system` turn (if any)
in front of the last `MAX - 2` turns, else keep the last `MAX - 1` turns,
then push the new turn. `timestamp` fields are clock values and omitted. -/

structure Message where
  role : List Char
  content : List Char
deriving DecidableEq

def MAX_MESSAGES_PER_CONVERSATION : Nat := 100

/-- JS `arr.slice(-k)` for `k ≥ 1`: the last `k` elements (whole array when
`k` exceeds the length). -/
def sliceLast (k : Nat) (l : List α) : List α := l.drop (l.length - k)

/-- The eviction step of `addMessageToConversation`. -/
def evictForCapacity (msgs : List Message) : List Message :=
  if MAX_MESSAGES_PER_CONVERSATION ≤ msgs.length then
    match msgs.find? (fun m => m.role = chars "system") with
    | some systemMsg =>
      systemMsg :: sliceLast (MAX_MESSAGES_PER_CONVERSATION - 2) msgs
    | none => sliceLast (MAX_MESSAGES_PER_CONVERSATION - 1) msgs
  else msgs

/-- `addMessageToConversation` restricted to the turn list it owns. -/
def addMessageToConversation (msgs : List Message) (role content : List Char) :
    List Message :=
  evictForCapacity msgs ++ [⟨role, content⟩]

/-! ## Turn assembler -/

structure ChatMessage where
  role : List Char
  content : List Char
deriving DecidableEq

/-- `replace(/^User: /, '')`: strip one leading `User: ` when present. -/
def stripUserRole (s : List Char) : List Char :=
  if (chars "User: ").isPrefixOf s then s.drop 6 else s

/-- `conversationHistory.slice(0, -1).join('\n\n')`. -/
def joinBlank : List (List Char) → List Char
  | [] => []
  | [x] => x
  | x :: rest => x ++ chars "\n\n" ++ joinBlank rest

/-- `buildConversationInput` (api-client module; the chat-completions
route repeats the same code inline). -/
def buildConversationInput (messages : List ChatMessage) : List Char :=
  let systemPrompt := messages.foldl
    (fun sp m => if m.role = chars "system" then m.content else sp) []
  let conversationHistory := messages.foldl
    (fun h m =>
      if m.role = chars "user" then h ++ [chars "User: " ++ m.content]
      else if m.role = chars "assistant" then h ++ [chars "Assistant: " ++ m.content]
      else h) []
  let base :=
    if systemPrompt ≠ [] then
      chars "[System Instructions]\n" ++ systemPrompt ++ chars "\n\n"
    else []
  if 1 < conversationHistory.length then
    base ++ chars "[Conversation History]\n" ++
      joinBlank conversationHistory.dropLast ++ chars "\n\n" ++
      chars "[Current Message]\n" ++ stripUserRole (conversationHistory.getLastD [])
  else if conversationHistory.length = 1 then
    base ++ stripUserRole (conversationHistory.getLastD [])
  else base

/-- The conversational turns (`user`/`assistant`) of a message list, used
to phrase claims about the assembler. -/
def convTurns (messages : List ChatMessage) : List ChatMessage :=
  messages.filter
    (fun m => m.role = chars "user" ∨ m.role = chars "assistant")

/-- How one conversational turn is rendered into the history block. -/
def renderTurn (m : ChatMessage) : List Char :=
  if m.role = chars "user" then chars "User: " ++ m.content
  else chars "Assistant: " ++ m.content

/-- The system block of the assembled input. -/
def systemBlock (messages : List ChatMessage) : List Char :=
  let systemPrompt := messages.foldl
    (fun sp m => if m.role = chars "system" then m.content else sp) []
  if systemPrompt ≠ [] then
    chars "[System Instructions]\n" ++ systemPrompt ++ chars "\n\n"
  else []

/-! ## Credential rotator (index.js key management) -/

inductive KeyMode where
  | roundRobin
  | sequential
  | random
deriving DecidableEq

structure KeyState where
  keys : List (List Char)
  currentKeyIndex : Nat
  usageCount : List (List Char × Nat)
  errorCount : List (List Char × Nat)
deriving DecidableEq

/-- `map.set(key, (map.get(key) || 0) + 1)`. -/
def bumpCount (m : List (List Char × Nat)) (k : List Char) :
    List (List Char × Nat) :=
  match m with
  | [] => [(k, 1)]
  | (k2, v) :: rest =>
    if k2 = k then (k2, v + 1) :: rest else (k2, v) :: bumpCount rest k

/-- `getNextApiKey`: `none` models the thrown configuration error on an
empty pool; `rand` models the value `Math.floor(Math.random() *
API_KEYS.length)` drawn in random mode. -/
def getNextApiKey (st : KeyState) (mode : KeyMode) (rand : Nat) :
    Option (List Char) × KeyState :=
  if st.keys.isEmpty then (none, st)
  else
    let (key, st2) :=
      if st.keys.length = 1 then (st.keys.getD 0 [], st)
      else
        match mode with
        | KeyMode.sequential => (st.keys.getD st.currentKeyIndex [], st)
        | KeyMode.random => (st.keys.getD (rand % st.keys.length) [], st)
        | KeyMode.roundRobin =>
          (st.keys.getD st.currentKeyIndex [],
           { st with currentKeyIndex := (st.currentKeyIndex + 1) % st.keys.length })
    (some key, { st2 with usageCount := bumpCount st2.usageCount key })

/-- `markKeyError`: bump the error counter; under the sequential policy
also advance the cursor. -/
def markKeyError (st : KeyState) (mode : KeyMode) (key : List Char) : KeyState :=
  let st2 := { st with errorCount := bumpCount st.errorCount key }
  if mode = KeyMode.sequential then
    { st2 with currentKeyIndex := (st2.currentKeyIndex + 1) % st2.keys.length }
  else st2

/-- `n` successive `getNextApiKey` calls; collects the returned keys. -/
def runNexts (mode : KeyMode) : Nat → KeyState →
    List (Option (List Char)) × KeyState
  | 0, st => ([], st)
  | n + 1, st =>
    let (k, st2) := getNextApiKey st mode 0
    let (ks, st3) := runNexts mode n st2
    (k :: ks, st3)

/-! ## Custom-agent failure-threshold circuit breaker (index.js) -/

structure AgentFailureState where
  count : Nat
  disabled : Bool
deriving DecidableEq

def YOU_AGENT_FAILURE_THRESHOLD : Nat := 3

/-- `recordYouAgentFailure` with the (env-configurable) threshold. -/
def recordYouAgentFailure (threshold : Nat) (st : AgentFailureState) :
    AgentFailureState :=
  let c := st.count + 1
  { count := c, disabled := if threshold ≤ c then true else st.disabled }

/-- `resetYouAgentFailures`. -/
def resetYouAgentFailures : AgentFailureState := ⟨0, false⟩

def recordFailures (threshold n : Nat) (st : AgentFailureState) :
    AgentFailureState :=
  Nat.rec st (fun _ acc => recordYouAgentFailure threshold acc) n

/-- The failure-tracking metadata embedded in the error response of
`callCustomAgent` (single-call path). -/
structure FailureTracking where
  currentFailures : Nat
  threshold : Nat
deriving DecidableEq

structure AgentCallResponse where
  success : Bool
  result : Option (List Char)
  errorMessage : Option (List Char)
  failureTracking : Option FailureTracking
deriving DecidableEq

/-- Outcome of one upstream call: the extracted text, or the thrown error. -/
inductive UpstreamResult where
  | ok (text : List Char)
  | fail (message : List Char)

/-- The single-call execution step of `callCustomAgent`: the upstream call
is issued unconditionally (the function never consults the disabled flag);
on success the breaker state is untouched, on failure
`recordYouAgentFailure` runs and the advisory metadata is reported. -/
def callCustomAgentOnce (threshold : Nat) (st : AgentFailureState)
    (outcome : UpstreamResult) : AgentCallResponse × AgentFailureState :=
  match outcome with
  | UpstreamResult.ok text =>
    ({ success := true, result := some text, errorMessage := none,
       failureTracking := none }, st)
  | UpstreamResult.fail msg =>
    let st2 := recordYouAgentFailure threshold st
    ({ success := false, result := none, errorMessage := some msg,
       failureTracking := some ⟨st2.count, threshold⟩ }, st2)

/-! ## Authentication middleware (lib/auth-middleware.js) -/

inductive AuthResult where
  | unauthorized (code : List Char)
  | nextCalled
deriving DecidableEq

/-- `authenticate(req, res, next)`: reject without a `Bearer ` header;
compare the presented token against the configured list only when that
list is non-empty (`REQUIRE_TOKEN_AUTH`). -/
def authenticate (accessTokens : List (List Char))
    (authHeader : Option (List Char)) : AuthResult :=
  match authHeader with
  | none => AuthResult.unauthorized (chars "invalid_api_key")
  | some h =>
    if ¬ (chars "Bearer ").isPrefixOf h then
      AuthResult.unauthorized (chars "invalid_api_key")
    else if ¬ accessTokens.isEmpty then
      if h.drop 7 ∈ accessTokens then AuthResult.nextCalled
      else AuthResult.unauthorized (chars "invalid_access_token")
    else AuthResult.nextCalled

/-! # Theorems -/

/-! ## C7: credential rotation policies -/

def keyA : List Char := chars "keyA"

def keyB : List Char := chars "keyB"

/-- A fresh two-credential pool `[A, B]` with the cursor at 0. -/
def poolAB : KeyState := ⟨[keyA, keyB], 0, [], []⟩

/-- C7: with pool `[A, B]`: round-robin returns the credential at the
cursor and advances it by one mod pool size on every call, so four calls
return A, B, A, B; sequential never advances the cursor on success, so
four calls return A, A, A, A, and one `markError` advances it so the next
call returns B; the random policy leaves the cursor untouched. -/
theorem c7_credential_rotator :
    (runNexts KeyMode.roundRobin 4 poolAB).1 =
      [some keyA, some keyB, some keyA, some keyB]
    ∧ (runNexts KeyMode.sequential 4 poolAB).1 =
      [some keyA, some keyA, some keyA, some keyA]
    ∧ (getNextApiKey
        (markKeyError (runNexts KeyMode.sequential 4 poolAB).2
          KeyMode.sequential keyA)
        KeyMode.sequential 0).1 = some keyB
    ∧ (∀ st rand,
        ((getNextApiKey st KeyMode.random rand).2).currentKeyIndex =
          st.currentKeyIndex)
    ∧ (∀ st rand,
        ((getNextApiKey st KeyMode.sequential rand).2).currentKeyIndex =
          st.currentKeyIndex) := by
  refine ⟨by decide, by decide, by decide, ?_, ?_⟩ <;>
    · intro st rand
      by_cases hE : st.keys.isEmpty <;> by_cases h1 : st.keys.length = 1 <;>
        simp [getNextApiKey, hE, h1]

/-! ## C9: custom-agent failure-threshold circuit breaker -/

/-- C9: every recorded failure increments the single running count by one;
starting from the reset state the disabled flag after `n` failures is set
exactly when the count has reached the threshold (default 3); the flag
never resets a failure and is never consulted by the call itself (the
response is the same whatever the flag's value, and a success still
succeeds); a success leaves the breaker state untouched, a failure applies
exactly `recordYouAgentFailure` and surfaces the advisory metadata; only
the explicit reset operation clears count and flag. -/
theorem c9_circuit_breaker :
    (∀ threshold st, (recordYouAgentFailure threshold st).count = st.count + 1)
    ∧ (∀ threshold st, (recordYouAgentFailure threshold st).disabled =
        (decide (threshold ≤ st.count + 1) || st.disabled))
    ∧ (∀ threshold n,
        (recordFailures threshold n resetYouAgentFailures).count = n)
    ∧ (∀ threshold n,
        (recordFailures threshold n resetYouAgentFailures).disabled =
          decide (1 ≤ n ∧ threshold ≤ n))
    ∧ (∀ n, (recordFailures YOU_AGENT_FAILURE_THRESHOLD n
        resetYouAgentFailures).disabled = decide (YOU_AGENT_FAILURE_THRESHOLD ≤ n))
    ∧ YOU_AGENT_FAILURE_THRESHOLD = 3
    ∧ (∀ threshold st outcome,
        (callCustomAgentOnce threshold st outcome).1 =
          (callCustomAgentOnce threshold ⟨st.count, true⟩ outcome).1
        ∧ (callCustomAgentOnce threshold st outcome).1 =
          (callCustomAgentOnce threshold ⟨st.count, false⟩ outcome).1)
    ∧ (∀ threshold st text,
        (callCustomAgentOnce threshold st (UpstreamResult.ok text)).1.success = true
        ∧ (callCustomAgentOnce threshold st (UpstreamResult.ok text)).2 = st)
    ∧ (∀ threshold st msg,
        (callCustomAgentOnce threshold st (UpstreamResult.fail msg)).2 =
          recordYouAgentFailure threshold st
        ∧ (callCustomAgentOnce threshold st (UpstreamResult.fail msg)).1.failureTracking =
          some ⟨st.count + 1, threshold⟩)
    ∧ resetYouAgentFailures = ⟨0, false⟩ := by
  have hcount : ∀ threshold n,
      (recordFailures threshold n resetYouAgentFailures).count = n := by
    intro threshold n
    induction n with
    | zero => rfl
    | succ k ih => simp [recordFailures, recordYouAgentFailure] at ih ⊢; omega
  have hdis : ∀ threshold n,
      (recordFailures threshold n resetYouAgentFailures).disabled =
        decide (1 ≤ n ∧ threshold ≤ n) := by
    intro threshold n
    induction n with
    | zero => rfl
    | succ k ih =>
      have hc := hcount threshold k
      show (recordYouAgentFailure threshold
        (recordFailures threshold k resetYouAgentFailures)).disabled = _
      rw [recordYouAgentFailure]
      by_cases h : threshold ≤ (recordFailures threshold k resetYouAgentFailures).count + 1
      · rw [hc] at h
        simp only [hc, h, if_true]
        have : (1 ≤ k + 1 ∧ threshold ≤ k + 1) := ⟨by omega, h⟩
        simp [this]
      · rw [hc] at h
        simp only [hc]
        rw [if_neg h, ih, decide_eq_decide]
        omega
  refine ⟨fun _ _ => rfl, ?_, hcount, hdis, ?_, rfl, ?_, ?_, ?_, rfl⟩
  · intro threshold st
    rw [recordYouAgentFailure]
    by_cases h : threshold ≤ st.count + 1 <;> simp [h]
  · intro n
    rw [hdis]
    rw [decide_eq_decide]
    show 1 ≤ n ∧ 3 ≤ n ↔ 3 ≤ n
    omega
  · intro threshold st outcome
    cases outcome <;> simp [callCustomAgentOnce, recordYouAgentFailure]
  · intro threshold st text
    exact ⟨rfl, rfl⟩
  · intro threshold st msg
    exact ⟨rfl, rfl⟩

/-! ## C10: authentication middleware -/

/-- C10: a request without an `Authorization` header, or whose header does
not start with `Bearer `, is rejected with 401 (`invalid_api_key`); when at
least one access token is configured, a presented token matching none of
them is rejected with 401 (`invalid_access_token`); when the configured
token list is empty, any request with a `Bearer ` header is accepted. -/
theorem c10_authenticate :
    (∀ tokens, authenticate tokens none =
      AuthResult.unauthorized (chars "invalid_api_key"))
    ∧ (∀ tokens h, ((chars "Bearer ").isPrefixOf h) = false →
        authenticate tokens (some h) =
          AuthResult.unauthorized (chars "invalid_api_key"))
    ∧ (∀ tokens h, tokens ≠ [] → ((chars "Bearer ").isPrefixOf h) = true →
        h.drop 7 ∉ tokens →
        authenticate tokens (some h) =
          AuthResult.unauthorized (chars "invalid_access_token"))
    ∧ (∀ h, ((chars "Bearer ").isPrefixOf h) = true →
        authenticate [] (some h) = AuthResult.nextCalled) := by
  refine ⟨fun _ => rfl, ?_, ?_, ?_⟩
  · intro tokens h hpre
    simp [authenticate, hpre]
  · intro tokens h hne hpre hmem
    have hE : tokens.isEmpty = false := by
      cases tokens with
      | nil => exact absurd rfl hne
      | cons a t => rfl
    simp [authenticate, hpre, hE, hmem]
  · intro h hpre
    simp [authenticate, hpre]

/-- C10 witness: the middleware evaluated at concrete headers and token
lists through `c10_authenticate`. -/
theorem c10_authenticate_witness :
    authenticate [chars "tok1"] none =
      AuthResult.unauthorized (chars "invalid_api_key")
    ∧ authenticate [chars "tok1"] (some (chars "Basic x")) =
      AuthResult.unauthorized (chars "invalid_api_key")
    ∧ authenticate [chars "tok1"] (some (chars "Bearer tok2")) =
      AuthResult.unauthorized (chars "invalid_access_token")
    ∧ authenticate [] (some (chars "Bearer anything")) = AuthResult.nextCalled :=
  ⟨c10_authenticate.1 [chars "tok1"],
   c10_authenticate.2.1 [chars "tok1"] (chars "Basic x") (by decide),
   c10_authenticate.2.2.1 [chars "tok1"] (chars "Bearer tok2") (by decide)
     (by decide) (by decide),
   c10_authenticate.2.2.2 (chars "Bearer anything") (by decide)⟩

/-! ## C5: per-conversation turn-count eviction invariant -/

/-- C5: after any single append the turn count is at most the configured
maximum (100); a leading `system` turn survives the append (it is still
the first turn afterwards); and eviction only drops turns from the front
of the ordered sequence — with no `system` turn present the evicted list
is a tail `msgs.drop k` of the original, and with a leading `system` turn
it is that turn followed by a tail of the remaining sequence. -/
theorem c5_turn_eviction :
    (∀ (msgs : List Message) (role content : List Char),
      (addMessageToConversation msgs role content).length ≤
        MAX_MESSAGES_PER_CONVERSATION)
    ∧ (∀ (msgs : List Message) (role content : List Char) (m : Message),
        msgs.head? = some m → m.role = chars "system" →
        (addMessageToConversation msgs role content).head? = some m)
    ∧ (∀ msgs : List Message, (∀ m ∈ msgs, m.role ≠ chars "system") →
        ∃ k, evictForCapacity msgs = msgs.drop k)
    ∧ (∀ (msgs : List Message) (m : Message),
        msgs.head? = some m → m.role = chars "system" →
        ∃ k, evictForCapacity msgs = m :: msgs.tail.drop k) := by
  have hlen : ∀ msgs : List Message,
      (evictForCapacity msgs).length ≤ MAX_MESSAGES_PER_CONVERSATION - 1 := by
    intro msgs
    rw [evictForCapacity]
    by_cases h : MAX_MESSAGES_PER_CONVERSATION ≤ msgs.length
    · rw [if_pos h]
      cases hf : msgs.find? (fun m => m.role = chars "system") with
      | none =>
        simp only [sliceLast, List.length_drop]
        rw [MAX_MESSAGES_PER_CONVERSATION] at h ⊢
        omega
      | some systemMsg =>
        simp only [List.length_cons, sliceLast, List.length_drop]
        rw [MAX_MESSAGES_PER_CONVERSATION] at h ⊢
        omega
    · rw [if_neg h]
      omega
  refine ⟨?_, ?_, ?_, ?_⟩
  · intro msgs role content
    have := hlen msgs
    rw [addMessageToConversation, List.length_append, List.length_cons,
      List.length_nil]
    rw [MAX_MESSAGES_PER_CONVERSATION] at this ⊢
    omega
  · intro msgs role content m hhead hrole
    cases msgs with
    | nil => exact absurd hhead (by simp)
    | cons m0 tail =>
      have hm : m0 = m := by simpa using hhead
      subst hm
      rw [addMessageToConversation, evictForCapacity]
      by_cases h : MAX_MESSAGES_PER_CONVERSATION ≤ (m0 :: tail).length
      · rw [if_pos h]
        have hf : (m0 :: tail).find? (fun m => m.role = chars "system") = some m0 :=
          List.find?_cons_of_pos tail (by simp [hrole])
        rw [hf]
        rfl
      · rw [if_neg h]
        rfl
  · intro msgs hnosys
    have hf : msgs.find? (fun m => m.role = chars "system") = none :=
      List.find?_eq_none.mpr (fun m hm => by simpa using hnosys m hm)
    rw [evictForCapacity, hf]
    by_cases h : MAX_MESSAGES_PER_CONVERSATION ≤ msgs.length
    · rw [if_pos h]
      exact ⟨msgs.length - (MAX_MESSAGES_PER_CONVERSATION - 1), rfl⟩
    · rw [if_neg h]
      exact ⟨0, rfl⟩
  · intro msgs m hhead hrole
    cases msgs with
    | nil => exact absurd hhead (by simp)
    | cons m0 tail =>
      have hm : m0 = m := by simpa using hhead
      subst hm
      have hf : (m0 :: tail).find? (fun m => m.role = chars "system") = some m0 :=
        List.find?_cons_of_pos tail (by simp [hrole])
      rw [evictForCapacity, hf]
      by_cases h : MAX_MESSAGES_PER_CONVERSATION ≤ (m0 :: tail).length
      · rw [if_pos h]
        have hge : 1 ≤ (m0 :: tail).length - (MAX_MESSAGES_PER_CONVERSATION - 2) := by
          rw [MAX_MESSAGES_PER_CONVERSATION] at h ⊢
          simp only [List.length_cons] at h ⊢
          omega
        obtain ⟨j, hj⟩ :
            ∃ j, (m0 :: tail).length - (MAX_MESSAGES_PER_CONVERSATION - 2) = j + 1 :=
          ⟨(m0 :: tail).length - (MAX_MESSAGES_PER_CONVERSATION - 2) - 1, by omega⟩
        refine ⟨j, ?_⟩
        rw [sliceLast, hj]
        rfl
      · rw [if_neg h]
        exact ⟨0, rfl⟩

/-- C5 witness: the invariant through `c5_turn_eviction` at a
two-turn conversation led by a `system` turn and at a one-turn
conversation without one. -/
theorem c5_turn_eviction_witness :
    (addMessageToConversation
      [⟨chars "system", chars "s"⟩, ⟨chars "user", chars "a"⟩]
      (chars "user") (chars "b")).length ≤ MAX_MESSAGES_PER_CONVERSATION
    ∧ (addMessageToConversation
        [⟨chars "system", chars "s"⟩, ⟨chars "user", chars "a"⟩]
        (chars "user") (chars "b")).head? = some ⟨chars "system", chars "s"⟩
    ∧ (∃ k, evictForCapacity [(⟨chars "user", chars "a"⟩ : Message)] =
        [(⟨chars "user", chars "a"⟩ : Message)].drop k)
    ∧ (∃ k, evictForCapacity
        [⟨chars "system", chars "s"⟩, ⟨chars "user", chars "a"⟩] =
        ⟨chars "system", chars "s"⟩ ::
          ([⟨chars "system", chars "s"⟩, ⟨chars "user", chars "a"⟩] :
            List Message).tail.drop k) :=
  ⟨c5_turn_eviction.1 _ _ _,
   c5_turn_eviction.2.1 _ _ _ _ rfl rfl,
   c5_turn_eviction.2.2.1 _ (by decide),
   c5_turn_eviction.2.2.2 _ _ rfl rfl⟩

/-! ## C6: turn assembler -/

/-- The history accumulation loop renders exactly the conversational
(`user`/`assistant`) turns, in order. -/
theorem historyFold_eq (msgs : List ChatMessage) (acc : List (List Char)) :
    msgs.foldl
      (fun h m =>
        if m.role = chars "user" then h ++ [chars "User: " ++ m.content]
        else if m.role = chars "assistant" then h ++ [chars "Assistant: " ++ m.content]
        else h) acc = acc ++ (convTurns msgs).map renderTurn := by
  induction msgs generalizing acc with
  | nil => simp [convTurns]
  | cons m rest ih =>
    simp only [List.foldl_cons]
    by_cases hu : m.role = chars "user"
    · have hre : renderTurn m = chars "User: " ++ m.content := by
        rw [renderTurn, if_pos hu]
      have hct : convTurns (m :: rest) = m :: convTurns rest := by
        simp [convTurns, List.filter_cons, hu]
      rw [if_pos hu, ih, hct, List.map_cons, hre]
      simp
    · by_cases ha : m.role = chars "assistant"
      · have hre : renderTurn m = chars "Assistant: " ++ m.content := by
          rw [renderTurn, if_neg hu]
        have hct : convTurns (m :: rest) = m :: convTurns rest := by
          simp [convTurns, List.filter_cons, ha]
        rw [if_neg hu, if_pos ha, ih, hct, List.map_cons, hre]
        simp
      · have hct : convTurns (m :: rest) = convTurns rest := by
          simp [convTurns, List.filter_cons, hu, ha]
        rw [if_neg hu, if_neg ha, ih, hct]

theorem stripUserRole_user (c : List Char) :
    stripUserRole (chars "User: " ++ c) = c := by
  have hpre : (chars "User: ").isPrefixOf (chars "User: " ++ c) = true :=
    List.isPrefixOf_iff_prefix.mpr (List.prefix_append _ _)
  have h6 : (6 : Nat) = (chars "User: ").length := rfl
  rw [stripUserRole, if_pos hpre, h6, List.drop_left]

theorem stripUserRole_assistant (c : List Char) :
    stripUserRole (chars "Assistant: " ++ c) = chars "Assistant: " ++ c := by
  have hpre : (chars "User: ").isPrefixOf (chars "Assistant: " ++ c) = false := rfl
  rw [stripUserRole, if_neg (by simp [hpre])]

/-- C6 counterexample: the claim says a single-turn input is emitted with
its role prefix stripped, but a single assistant turn keeps its
`Assistant: ` prefix — only a leading `User: ` is ever stripped. -/
theorem c6_counterexample :
    buildConversationInput [⟨chars "assistant", chars "ok"⟩] = chars "Assistant: ok"
    ∧ chars "Assistant: ok" ≠ chars "ok" := by
  exact ⟨by decide, by decide⟩

/-- C6 (amended): with more than one conversational turn the assembler
emits the labeled history block containing all turns but the last, each
rendered `<Role>: <content>` and joined by blank lines, then the labeled
current-message block holding the final turn with only a leading
`User: ` prefix stripped; with exactly one turn it emits that rendered
turn with only a leading `User: ` prefix stripped (so a user turn's
content appears bare, while an assistant turn keeps `Assistant: `). -/
theorem c6_turn_assembler :
    (∀ (msgs : List ChatMessage) (t : List ChatMessage) (m : ChatMessage),
      convTurns msgs = t ++ [m] → t ≠ [] →
      buildConversationInput msgs =
        systemBlock msgs ++ chars "[Conversation History]\n" ++
          joinBlank (t.map renderTurn) ++ chars "\n\n" ++
          chars "[Current Message]\n" ++ stripUserRole (renderTurn m))
    ∧ (∀ (msgs : List ChatMessage) (m : ChatMessage),
        convTurns msgs = [m] →
        buildConversationInput msgs = systemBlock msgs ++ stripUserRole (renderTurn m))
    ∧ (∀ m : ChatMessage, m.role = chars "user" →
        stripUserRole (renderTurn m) = m.content)
    ∧ (∀ m : ChatMessage, m.role = chars "assistant" → m.role ≠ chars "user" →
        stripUserRole (renderTurn m) = chars "Assistant: " ++ m.content) := by
  refine ⟨?_, ?_, ?_, ?_⟩
  · intro msgs t m hconv hne
    have hlen : 1 < ((convTurns msgs).map renderTurn).length := by
      rw [hconv]
      cases t with
      | nil => exact absurd rfl hne
      | cons a t2 => simp
    rw [buildConversationInput, historyFold_eq msgs [], List.nil_append,
      if_pos hlen, hconv, systemBlock]
    simp only [List.map_append, List.map_cons, List.map_nil,
      List.dropLast_concat]
    have hg : ((t.map renderTurn) ++ [renderTurn m]).getLastD [] = renderTurn m :=
      List.getLastD_concat _ _ _
    rw [hg]
  · intro msgs m hconv
    have hlen : ¬ 1 < ((convTurns msgs).map renderTurn).length := by
      rw [hconv]; simp
    have hlen1 : ((convTurns msgs).map renderTurn).length = 1 := by
      rw [hconv]; simp
    rw [buildConversationInput, historyFold_eq msgs [], List.nil_append,
      if_neg hlen, if_pos hlen1, hconv, systemBlock]
    simp [List.getLastD]
  · intro m hu
    rw [renderTurn, if_pos hu, stripUserRole_user]
  · intro m ha hu
    rw [renderTurn, if_neg hu, stripUserRole_assistant]

/-- C6 witness: the amended assembler behavior through
`c6_turn_assembler` on a three-turn and a one-turn conversation. -/
theorem c6_turn_assembler_witness :
    buildConversationInput
      [⟨chars "user", chars "hi"⟩, ⟨chars "assistant", chars "yo"⟩,
       ⟨chars "user", chars "bye"⟩] =
      systemBlock
        [⟨chars "user", chars "hi"⟩, ⟨chars "assistant", chars "yo"⟩,
         ⟨chars "user", chars "bye"⟩] ++
      chars "[Conversation History]\n" ++
      joinBlank
        ([⟨chars "user", chars "hi"⟩, ⟨chars "assistant", chars "yo"⟩].map renderTurn) ++
      chars "\n\n" ++ chars "[Current Message]\n" ++
      stripUserRole (renderTurn ⟨chars "user", chars "bye"⟩)
    ∧ buildConversationInput [⟨chars "user", chars "hi"⟩] =
      systemBlock [⟨chars "user", chars "hi"⟩] ++
        stripUserRole (renderTurn ⟨chars "user", chars "hi"⟩)
    ∧ stripUserRole (renderTurn ⟨chars "user", chars "bye"⟩) = chars "bye"
    ∧ stripUserRole (renderTurn ⟨chars "assistant", chars "yo"⟩) =
      chars "Assistant: " ++ chars "yo" :=
  ⟨c6_turn_assembler.1 _
      [⟨chars "user", chars "hi"⟩, ⟨chars "assistant", chars "yo"⟩]
      ⟨chars "user", chars "bye"⟩ (by decide) (by decide),
   c6_turn_assembler.2.1 _ ⟨chars "user", chars "hi"⟩ (by decide),
   c6_turn_assembler.2.2.1 _ rfl,
   c6_turn_assembler.2.2.2 _ rfl (by decide)⟩

/-! ## C1: delta-verbatim and suffix-only emission -/

/-- A delta-style upstream record. -/
def deltaRecord (d : List Char) : Json :=
  Json.obj [(chars "type", Json.str (chars "response.output_text.delta")),
    (chars "response", Json.obj
      [(chars "type", Json.str (chars "message.answer")),
       (chars "delta", Json.str d)])]

/-- A full-replacement upstream record with one `message.answer` item. -/
def outputRecord (text : List Char) : Json :=
  Json.obj [(chars "output", Json.arr
    [Json.obj [(chars "type", Json.str (chars "message.answer")),
      (chars "text", Json.str text)]])]

/-- One network chunk holding the two full-replacement records of the
spec's suffix-emission test, `text: "ab"` then `text: "abc"`. -/
def c1chunk : List Char :=
  chars "data: \x7b\"output\":[\x7b\"type\":\"message.answer\",\"text\":\"ab\"\x7d]\x7d\ndata: \x7b\"output\":[\x7b\"type\":\"message.answer\",\"text\":\"abc\"\x7d]\x7d\n"

/-- C1: a delta-style record under a `message.answer` envelope with
non-empty delta emits that delta verbatim; a record carrying a top-level
output list emits, for a `message.answer` item whose text extends the
already-emitted content, exactly the unseen suffix (and nothing when the
text brings nothing new); in particular the records `text: "ab"` then
`text: "abc"` emit the fragments `"ab"` then `"c"`. -/
theorem c1_demux_suffix_emission :
    (∀ (parsed : Json) (fc d : List Char),
      getStrField parsed (chars "type") = some (chars "response.output_text.delta") →
      responseTypeOf parsed = some (chars "message.answer") →
      responseDeltaOf parsed = some d → d ≠ [] →
      parsed.getField (chars "output") = none →
      processRecord parsed fc = (fc ++ d, [d]))
    ∧ (∀ fc rest : List Char, rest ≠ [] →
        processRecord (outputRecord (fc ++ rest)) fc = (fc ++ rest, [rest]))
    ∧ (∀ fc : List Char, processRecord (outputRecord fc) fc = (fc, []))
    ∧ (demuxChunks [c1chunk]).2 = [chars "ab", chars "c"] := by
  refine ⟨?_, ?_, ?_, by decide⟩
  · intro parsed fc d h1 h2 h3 hd h4
    simp only [processRecord, processDeltaBranch]
    rw [h1, h2, h3, h4]
    simp [hd]
  · intro fc rest hne
    have htx : fc ++ rest ≠ [] := by
      simp [hne]
    have g1 : getStrField (outputRecord (fc ++ rest)) (chars "type") = none := rfl
    have g2 : responseTypeOf (outputRecord (fc ++ rest)) = none := rfl
    have g3 : responseDeltaOf (outputRecord (fc ++ rest)) = none := rfl
    have g4 : (outputRecord (fc ++ rest)).getField (chars "output") =
        some (Json.arr [Json.obj
          [(chars "type", Json.str (chars "message.answer")),
           (chars "text", Json.str (fc ++ rest))]]) := rfl
    simp only [processRecord, processDeltaBranch]
    rw [g1, g2, g3, g4]
    simp only [processOutputItems, processOutputItem]
    have g5 : getStrField (Json.obj
        [(chars "type", Json.str (chars "message.answer")),
         (chars "text", Json.str (fc ++ rest))]) (chars "type") =
        some (chars "message.answer") := rfl
    have g6 : getStrField (Json.obj
        [(chars "type", Json.str (chars "message.answer")),
         (chars "text", Json.str (fc ++ rest))]) (chars "text") =
        some (fc ++ rest) := rfl
    rw [g5, g6]
    simp [htx, List.drop_left, hne]
  · intro fc
    by_cases hfc : fc = []
    · subst hfc
      decide
    · have g4 : (outputRecord fc).getField (chars "output") =
          some (Json.arr [Json.obj
            [(chars "type", Json.str (chars "message.answer")),
             (chars "text", Json.str fc)]]) := rfl
      have g5 : getStrField (Json.obj
          [(chars "type", Json.str (chars "message.answer")),
           (chars "text", Json.str fc)]) (chars "type") =
          some (chars "message.answer") := rfl
      have g6 : getStrField (Json.obj
          [(chars "type", Json.str (chars "message.answer")),
           (chars "text", Json.str fc)]) (chars "text") = some fc := rfl
      have g1 : getStrField (outputRecord fc) (chars "type") = none := rfl
      have g2 : responseTypeOf (outputRecord fc) = none := rfl
      have g3 : responseDeltaOf (outputRecord fc) = none := rfl
      simp only [processRecord, processDeltaBranch]
      rw [g1, g2, g3, g4]
      simp only [processOutputItems, processOutputItem]
      rw [g5, g6]
      simp [hfc, List.drop_length]

/-- C1 witness: the emission rules through `c1_demux_suffix_emission` at a
concrete delta record and concrete replacement texts. -/
theorem c1_demux_suffix_emission_witness :
    processRecord (deltaRecord (chars "hi")) (chars "x") =
      (chars "x" ++ chars "hi", [chars "hi"])
    ∧ processRecord (outputRecord (chars "ab" ++ chars "c")) (chars "ab") =
      (chars "ab" ++ chars "c", [chars "c"])
    ∧ processRecord (outputRecord (chars "ab")) (chars "ab") = (chars "ab", []) :=
  ⟨c1_demux_suffix_emission.1 (deltaRecord (chars "hi")) (chars "x") (chars "hi")
      rfl rfl rfl (by decide) rfl,
   c1_demux_suffix_emission.2.1 (chars "ab") (chars "c") (by decide),
   c1_demux_suffix_emission.2.2.1 (chars "ab")⟩

/-! ## C2: line reassembly across network chunks -/

/-- Complete lines re-joined with their terminating newlines. -/
def joinNl (lines : List (List Char)) : List Char :=
  (lines.map (fun l => l ++ ['\n'])).flatten

theorem splitBuffer_cons_newline (rest : List Char) :
    splitBuffer ('\n' :: rest) =
      ([] :: (splitBuffer rest).1, (splitBuffer rest).2) := by
  simp [splitBuffer]

theorem splitBuffer_cons_other (c : Char) (rest : List Char) (hc : c ≠ '\n') :
    splitBuffer (c :: rest) =
      (match splitBuffer rest with
       | ([], last) => ([], c :: last)
       | (l :: ls, last) => ((c :: l) :: ls, last)) := by
  simp [splitBuffer, hc]

theorem splitBuffer_append (x y : List Char) :
    splitBuffer (x ++ y) =
      ((splitBuffer x).1 ++ (splitBuffer ((splitBuffer x).2 ++ y)).1,
       (splitBuffer ((splitBuffer x).2 ++ y)).2) := by
  induction x with
  | nil => simp [splitBuffer]
  | cons c rest ih =>
    rcases hsb : splitBuffer rest with ⟨L, r⟩
    rw [hsb] at ih
    dsimp only at ih
    rcases hz : splitBuffer (r ++ y) with ⟨L2, r2⟩
    rw [hz] at ih
    by_cases hc : c = '\n'
    · subst hc
      rw [List.cons_append, splitBuffer_cons_newline, splitBuffer_cons_newline,
        ih, hsb]
      dsimp only
      rw [hz]
      simp
    · rw [List.cons_append, splitBuffer_cons_other c _ hc,
        splitBuffer_cons_other c _ hc, ih, hsb]
      cases L with
      | nil =>
        dsimp only
        rw [List.nil_append, List.cons_append, splitBuffer_cons_other c _ hc, hz]
        cases L2 <;> rfl
      | cons l ls =>
        dsimp only
        rw [hz]
        rfl

theorem processLines_append (l1 l2 : List (List Char)) (fc : List Char) :
    processLines (l1 ++ l2) fc =
      ((processLines l2 (processLines l1 fc).1).1,
       (processLines l1 fc).2 ++ (processLines l2 (processLines l1 fc).1).2) := by
  induction l1 generalizing fc with
  | nil => simp [processLines]
  | cons line rest ih =>
    rcases hpl : processLine line fc with ⟨fc1, o1⟩
    rw [List.cons_append, processLines, processLines, hpl]
    dsimp only
    rw [ih fc1]
    simp [List.append_assoc]

theorem splitBuffer_no_newline (cs : List Char) : '\n' ∉ (splitBuffer cs).2 := by
  induction cs with
  | nil => simp [splitBuffer]
  | cons c rest ih =>
    by_cases hc : c = '\n'
    · subst hc
      simpa [splitBuffer] using ih
    · rcases hsb : splitBuffer rest with ⟨L, r⟩
      rw [hsb] at ih
      cases L with
      | nil =>
        simp only [splitBuffer, if_neg hc, hsb]
        simp only [List.mem_cons, not_or]
        exact ⟨fun h => hc h.symm, ih⟩
      | cons l ls =>
        simpa [splitBuffer, if_neg hc, hsb] using ih

theorem splitBuffer_join (cs : List Char) :
    joinNl (splitBuffer cs).1 ++ (splitBuffer cs).2 = cs := by
  induction cs with
  | nil => simp [splitBuffer, joinNl]
  | cons c rest ih =>
    by_cases hc : c = '\n'
    · subst hc
      simpa [splitBuffer, joinNl] using ih
    · rcases hsb : splitBuffer rest with ⟨L, r⟩
      rw [hsb] at ih
      cases L with
      | nil =>
        simp only [joinNl, List.map_nil, List.flatten_nil, List.nil_append] at ih
        subst ih
        simp [splitBuffer, if_neg hc, hsb, joinNl]
      | cons l ls =>
        simp only [splitBuffer, if_neg hc, hsb, joinNl, List.map_cons,
          List.flatten_cons, List.cons_append, List.append_assoc] at ih ⊢
        rw [ih]

/-- First chunk of the spec's reassembly test: a record cut in the middle
of a JSON value. -/
def c2chunk1 : List Char := chars "data: \x7b\"type\":\"respo"

/-- Second chunk completing the record. -/
def c2chunk2 : List Char :=
  chars "nse.output_text.delta\",\"response\":\x7b\"type\":\"message.answer\",\"delta\":\"hi\"\x7d\x7d\n\n"

/-- C2: one read-loop iteration appends the chunk to the reassembly
buffer, processes exactly the complete lines, and retains the final
possibly-incomplete line: feeding `a ++ b` equals feeding `a` then `b`
(also at the whole-stream level), the retained buffer never contains a
newline and is the unprocessed tail of the data received so far, and the
spec's two-chunk test emits exactly the fragment `hi`. -/
theorem c2_line_reassembly :
    (∀ (st : DemuxState) (a b : List Char),
      feedChunk st (a ++ b) =
        ((feedChunk (feedChunk st a).1 b).1,
         (feedChunk st a).2 ++ (feedChunk (feedChunk st a).1 b).2))
    ∧ (∀ a b : List Char, demuxChunks [a ++ b] = demuxChunks [a, b])
    ∧ (∀ (st : DemuxState) (chunk : List Char),
        '\n' ∉ (feedChunk st chunk).1.buffer
        ∧ joinNl (splitBuffer (st.buffer ++ chunk)).1 ++
            (feedChunk st chunk).1.buffer = st.buffer ++ chunk)
    ∧ (demuxChunks [c2chunk1, c2chunk2]).2 = [chars "hi"] := by
  have hfeed : ∀ (st : DemuxState) (a b : List Char),
      feedChunk st (a ++ b) =
        ((feedChunk (feedChunk st a).1 b).1,
         (feedChunk st a).2 ++ (feedChunk (feedChunk st a).1 b).2) := by
    intro st a b
    rcases h1 : splitBuffer (st.buffer ++ a) with ⟨L1, r1⟩
    rcases h2 : splitBuffer (r1 ++ b) with ⟨L2, r2⟩
    rcases p1 : processLines L1 st.fullContent with ⟨fc1, o1⟩
    rcases p2 : processLines L2 fc1 with ⟨fc2, o2⟩
    have hsb : splitBuffer (st.buffer ++ (a ++ b)) = (L1 ++ L2, r2) := by
      rw [← List.append_assoc, splitBuffer_append, h1]
      dsimp only
      rw [h2]
    have hpl : processLines (L1 ++ L2) st.fullContent = (fc2, o1 ++ o2) := by
      rw [processLines_append, p1]
      dsimp only
      rw [p2]
    have hfa : feedChunk st a = (⟨r1, fc1⟩, o1) := by
      rw [feedChunk, h1]
      dsimp only
      rw [p1]
    rw [feedChunk, hsb]
    dsimp only
    rw [hpl, hfa]
    dsimp only
    rw [feedChunk]
    dsimp only
    rw [h2]
    dsimp only
    rw [p2]
  refine ⟨hfeed, ?_, ?_, by decide⟩
  · intro a b
    have h := hfeed ⟨[], []⟩ a b
    rcases hx : feedChunk ⟨[], []⟩ a with ⟨st1, f1⟩
    rcases hy : feedChunk st1 b with ⟨st2, f2⟩
    rw [hx, hy] at h
    dsimp only at h
    simp [demuxChunks, h, hx, hy]
  · intro st chunk
    constructor
    · have := splitBuffer_no_newline (st.buffer ++ chunk)
      rw [feedChunk]
      rcases h1 : splitBuffer (st.buffer ++ chunk) with ⟨L, r⟩
      rw [h1] at this
      dsimp only
      rcases p1 : processLines L st.fullContent with ⟨fc, o⟩
      exact this
    · have := splitBuffer_join (st.buffer ++ chunk)
      rw [feedChunk]
      rcases h1 : splitBuffer (st.buffer ++ chunk) with ⟨L, r⟩
      rw [h1] at this
      dsimp only at this ⊢
      rcases p1 : processLines L st.fullContent with ⟨fc, o⟩
      exact this

/-- C2 witness: the reassembly facts through `c2_line_reassembly` at the
spec's concrete two-chunk input. -/
theorem c2_line_reassembly_witness :
    feedChunk ⟨[], []⟩ (c2chunk1 ++ c2chunk2) =
      ((feedChunk (feedChunk ⟨[], []⟩ c2chunk1).1 c2chunk2).1,
       (feedChunk ⟨[], []⟩ c2chunk1).2 ++
         (feedChunk (feedChunk ⟨[], []⟩ c2chunk1).1 c2chunk2).2)
    ∧ '\n' ∉ (feedChunk ⟨[], []⟩ c2chunk1).1.buffer :=
  ⟨c2_line_reassembly.1 ⟨[], []⟩ c2chunk1 c2chunk2,
   (c2_line_reassembly.2.2.1 ⟨[], []⟩ c2chunk1).1⟩

/-! ## C3: typed-block emitter framing

The accumulated text grows by exactly the emitted fragments, so the token
estimate in `message_delta` is the total emitted text length divided
by 4. -/

theorem processOutputItem_len (item : Json) (acc : List Char × List (List Char)) :
    (processOutputItem item acc).1.length + acc.2.flatten.length =
      acc.1.length + (processOutputItem item acc).2.flatten.length := by
  rw [processOutputItem]
  cases g1 : getStrField item (chars "type") with
  | none => cases getStrField item (chars "text") <;> rfl
  | some ty =>
    cases g2 : getStrField item (chars "text") with
    | none => rfl
    | some tx =>
      dsimp only
      by_cases hcond : ty = chars "message.answer" ∧ tx ≠ []
      · rw [if_pos hcond]
        by_cases hnt : tx.drop acc.1.length ≠ []
        · rw [if_pos hnt]
          have hlt : acc.1.length < tx.length := by
            by_contra hle
            exact hnt (List.drop_eq_nil_of_le (by omega))
          have hdl : (tx.drop acc.1.length).length = tx.length - acc.1.length :=
            List.length_drop _ _
          simp only [List.flatten_append, List.length_append,
            List.flatten_cons, List.flatten_nil]
          simp only [List.length_append, List.length_nil] at *
          omega
        · rw [if_neg hnt]
      · rw [if_neg hcond]

theorem processOutputItems_len (items : List Json)
    (acc : List Char × List (List Char)) :
    (processOutputItems items acc).1.length + acc.2.flatten.length =
      acc.1.length + (processOutputItems items acc).2.flatten.length := by
  induction items generalizing acc with
  | nil => rfl
  | cons item rest ih =>
    rw [processOutputItems]
    have h1 := processOutputItem_len item acc
    have h2 := ih (processOutputItem item acc)
    omega

theorem processRecord_len (parsed : Json) (fc : List Char) :
    (processRecord parsed fc).1.length =
      fc.length + (processRecord parsed fc).2.flatten.length := by
  have hd : (processDeltaBranch parsed fc).1.length =
      fc.length + (processDeltaBranch parsed fc).2.flatten.length := by
    rw [processDeltaBranch]
    cases getStrField parsed (chars "type") with
    | none => rfl
    | some t =>
      cases responseTypeOf parsed with
      | none => rfl
      | some rt =>
        cases responseDeltaOf parsed with
        | none => rfl
        | some d =>
          dsimp only
          by_cases hcond : t = chars "response.output_text.delta" ∧
              rt = chars "message.answer" ∧ d ≠ []
          · rw [if_pos hcond]
            simp
          · rw [if_neg hcond]
            simp
  rw [processRecord]
  cases hg : parsed.getField (chars "output") with
  | none => exact hd
  | some v =>
    cases v with
    | arr items =>
      dsimp only
      have := processOutputItems_len items (processDeltaBranch parsed fc)
      omega
    | null => exact hd
    | bool b => exact hd
    | num r => exact hd
    | str s => exact hd
    | obj ms => exact hd

theorem processLine_len (line fc : List Char) :
    (processLine line fc).1.length =
      fc.length + (processLine line fc).2.flatten.length := by
  rw [processLine]
  by_cases hp : (chars "data: ").isPrefixOf line
  · simp only [hp, if_true]
    by_cases hdone : line.drop 6 = chars "[DONE]"
    · rw [if_pos hdone]
      simp
    · rw [if_neg hdone]
      cases jsonParse (line.drop 6) with
      | none => simp
      | some parsed => exact processRecord_len parsed fc
  · simp only [hp, Bool.false_eq_true, if_false]
    simp

theorem processLines_len (lines : List (List Char)) (fc : List Char) :
    (processLines lines fc).1.length =
      fc.length + (processLines lines fc).2.flatten.length := by
  induction lines generalizing fc with
  | nil => simp [processLines]
  | cons line rest ih =>
    rcases hpl : processLine line fc with ⟨fc1, o1⟩
    have h1 := processLine_len line fc
    rw [hpl] at h1
    rcases hpr : processLines rest fc1 with ⟨fc2, o2⟩
    have h2 := ih fc1
    rw [hpr] at h2
    dsimp only at h1 h2
    rw [processLines, hpl]
    dsimp only
    rw [hpr]
    dsimp only
    simp only [List.flatten_append, List.length_append]
    omega

theorem feedChunk_len (st : DemuxState) (chunk : List Char) :
    (feedChunk st chunk).1.fullContent.length =
      st.fullContent.length + (feedChunk st chunk).2.flatten.length := by
  rw [feedChunk]
  rcases h1 : splitBuffer (st.buffer ++ chunk) with ⟨L, r⟩
  dsimp only
  rcases p1 : processLines L st.fullContent with ⟨fc, o⟩
  have := processLines_len L st.fullContent
  rw [p1] at this
  exact this

theorem demuxChunks_len (chunks : List (List Char)) :
    (demuxChunks chunks).1.fullContent.length =
      (demuxChunks chunks).2.flatten.length := by
  have hgen : ∀ (cs : List (List Char)) (acc : DemuxState × List (List Char)),
      (cs.foldl (fun acc chunk =>
        let (st, frags) := feedChunk acc.1 chunk
        (st, acc.2 ++ frags)) acc).1.fullContent.length +
        acc.2.flatten.length =
      acc.1.fullContent.length +
        (cs.foldl (fun acc chunk =>
          let (st, frags) := feedChunk acc.1 chunk
          (st, acc.2 ++ frags)) acc).2.flatten.length := by
    intro cs
    induction cs with
    | nil => intro acc; rfl
    | cons chunk rest ih =>
      intro acc
      rw [List.foldl_cons]
      rcases hf : feedChunk acc.1 chunk with ⟨st1, f1⟩
      have h1 := feedChunk_len acc.1 chunk
      rw [hf] at h1
      have h2 := ih (st1, acc.2 ++ f1)
      dsimp only at h1 h2 ⊢
      simp only [List.flatten_append, List.length_append] at h2 ⊢
      omega
  have := hgen chunks (⟨[], []⟩, [])
  simpa [demuxChunks] using this

/-- Event-kind tests used to state the exactly-once framing facts. -/
def isMessageStart : AnthropicEvent → Bool
  | AnthropicEvent.messageStart _ _ _ _ => true
  | _ => false

def isContentBlockStart : AnthropicEvent → Bool
  | AnthropicEvent.contentBlockStart _ _ => true
  | _ => false

def isContentBlockDelta : AnthropicEvent → Bool
  | AnthropicEvent.contentBlockDelta _ _ => true
  | _ => false

def isContentBlockStop : AnthropicEvent → Bool
  | AnthropicEvent.contentBlockStop _ => true
  | _ => false

def isMessageDelta : AnthropicEvent → Bool
  | AnthropicEvent.messageDelta _ _ => true
  | _ => false

def isMessageStop : AnthropicEvent → Bool
  | AnthropicEvent.messageStop => true
  | _ => false

/-- One network chunk holding the three delta records for the fragments
`Hel`, `lo`, ` world` of the spec's round-trip test. -/
def c34chunk : List Char :=
  chars "data: \x7b\"type\":\"response.output_text.delta\",\"response\":\x7b\"type\":\"message.answer\",\"delta\":\"Hel\"\x7d\x7d\ndata: \x7b\"type\":\"response.output_text.delta\",\"response\":\x7b\"type\":\"message.answer\",\"delta\":\"lo\"\x7d\x7d\ndata: \x7b\"type\":\"response.output_text.delta\",\"response\":\x7b\"type\":\"message.answer\",\"delta\":\" world\"\x7d\x7d\n"

/-- C3: on a normal stream the typed-block emitter writes, in strict
order, one `message_start` (empty content list, zero usage counts, the
optional conversation id), one `content_block_start` (index 0, empty
text), one `content_block_delta` (index 0) per fragment in fragment
order, one `content_block_stop` (index 0), one `message_delta` (terminal
stop reason `end_turn`, output tokens = floor of the total emitted text
length / 4), and one `message_stop`; each framing record occurs exactly
once; the spec's three-fragment round trip gives exactly the six event
kinds. -/
theorem c3_typed_block_emitter :
    (∀ (cid : Option (List Char)) (chunks : List (List Char)),
      processStream cid chunks StreamOutcome.success =
        ([AnthropicEvent.messageStart cid [] 0 0,
          AnthropicEvent.contentBlockStart 0 []]
         ++ ((demuxChunks chunks).2).map (fun f => AnthropicEvent.contentBlockDelta 0 f)
         ++ [AnthropicEvent.contentBlockStop 0,
             AnthropicEvent.messageDelta (chars "end_turn")
               ((demuxChunks chunks).2.flatten.length / 4),
             AnthropicEvent.messageStop], true))
    ∧ (∀ (cid : Option (List Char)) (chunks : List (List Char)),
        (processStream cid chunks StreamOutcome.success).1.countP isMessageStart = 1
        ∧ (processStream cid chunks StreamOutcome.success).1.countP isContentBlockStart = 1
        ∧ (processStream cid chunks StreamOutcome.success).1.countP isContentBlockDelta =
            (demuxChunks chunks).2.length
        ∧ (processStream cid chunks StreamOutcome.success).1.countP isContentBlockStop = 1
        ∧ (processStream cid chunks StreamOutcome.success).1.countP isMessageDelta = 1
        ∧ (processStream cid chunks StreamOutcome.success).1.countP isMessageStop = 1)
    ∧ processStream none [c34chunk] StreamOutcome.success =
        ([AnthropicEvent.messageStart none [] 0 0,
          AnthropicEvent.contentBlockStart 0 [],
          AnthropicEvent.contentBlockDelta 0 (chars "Hel"),
          AnthropicEvent.contentBlockDelta 0 (chars "lo"),
          AnthropicEvent.contentBlockDelta 0 (chars " world"),
          AnthropicEvent.contentBlockStop 0,
          AnthropicEvent.messageDelta (chars "end_turn") 2,
          AnthropicEvent.messageStop], true) := by
  have hmain : ∀ (cid : Option (List Char)) (chunks : List (List Char)),
      processStream cid chunks StreamOutcome.success =
        ([AnthropicEvent.messageStart cid [] 0 0,
          AnthropicEvent.contentBlockStart 0 []]
         ++ ((demuxChunks chunks).2).map (fun f => AnthropicEvent.contentBlockDelta 0 f)
         ++ [AnthropicEvent.contentBlockStop 0,
             AnthropicEvent.messageDelta (chars "end_turn")
               ((demuxChunks chunks).2.flatten.length / 4),
             AnthropicEvent.messageStop], true) := by
    intro cid chunks
    have hlen := demuxChunks_len chunks
    rcases hd : demuxChunks chunks with ⟨st, frags⟩
    rw [hd] at hlen
    dsimp only at hlen
    rw [processStream, hd]
    dsimp only
    rw [hlen]
    rfl
  refine ⟨hmain, ?_, by decide⟩
  intro cid chunks
  rw [hmain cid chunks]
  dsimp only
  simp [List.countP_cons, List.countP_append, List.countP_map,
    Function.comp_def, isMessageStart, isContentBlockStart, isContentBlockDelta,
    isContentBlockStop, isMessageDelta, isMessageStop, List.countP_eq_length]

/-! ## C4: flat-delta emitter round trip -/

/-- The `delta.content` payloads of the emitted records, in order. -/
def deltaContents (items : List OpenAIStreamItem) : List (List Char) :=
  items.filterMap (fun i =>
    match i with
    | OpenAIStreamItem.chunk _ (some c) _ => some c
    | _ => none)

def isFinishChunk : OpenAIStreamItem → Bool
  | OpenAIStreamItem.chunk _ _ (some _) => true
  | _ => false

def isDoneItem : OpenAIStreamItem → Bool
  | OpenAIStreamItem.doneSentinel => true
  | _ => false

theorem processDeltaBranch_ne (parsed : Json) (fc : List Char) :
    ∀ f ∈ (processDeltaBranch parsed fc).2, f ≠ [] := by
  rw [processDeltaBranch]
  cases getStrField parsed (chars "type") with
  | none => simp
  | some t =>
    cases responseTypeOf parsed with
    | none => simp
    | some rt =>
      cases responseDeltaOf parsed with
      | none => simp
      | some d =>
        dsimp only
        by_cases hcond : t = chars "response.output_text.delta" ∧
            rt = chars "message.answer" ∧ d ≠ []
        · rw [if_pos hcond]
          intro f hf
          have : f = d := by simpa using hf
          subst this
          exact hcond.2.2
        · rw [if_neg hcond]
          simp

theorem processLineOpenAI_ne (line fc : List Char) :
    ∀ f ∈ (processLineOpenAI line fc).2, f ≠ [] := by
  rw [processLineOpenAI]
  by_cases hp : (chars "data: ").isPrefixOf line
  · simp only [hp, if_true]
    cases jsonParse (line.drop 6) with
    | none => simp
    | some parsed => exact processDeltaBranch_ne parsed fc
  · simp only [hp, Bool.false_eq_true, if_false]
    simp

theorem processLinesOpenAI_ne (lines : List (List Char)) (fc : List Char) :
    ∀ f ∈ (processLinesOpenAI lines fc).2, f ≠ [] := by
  induction lines generalizing fc with
  | nil => simp [processLinesOpenAI]
  | cons line rest ih =>
    rcases hpl : processLineOpenAI line fc with ⟨fc1, o1⟩
    have h1 := processLineOpenAI_ne line fc
    rw [hpl] at h1
    rw [processLinesOpenAI, hpl]
    dsimp only
    rcases hpr : processLinesOpenAI rest fc1 with ⟨fc2, o2⟩
    have h2 := ih fc1
    rw [hpr] at h2
    dsimp only
    intro f hf
    rcases List.mem_append.mp hf with h | h
    · exact h1 f h
    · exact h2 f h

theorem feedChunkOpenAI_ne (st : DemuxState) (chunk : List Char) :
    ∀ f ∈ (feedChunkOpenAI st chunk).2, f ≠ [] := by
  rw [feedChunkOpenAI]
  rcases h1 : splitBuffer (st.buffer ++ chunk) with ⟨L, r⟩
  dsimp only
  rcases p1 : processLinesOpenAI L st.fullContent with ⟨fc, o⟩
  dsimp only
  have := processLinesOpenAI_ne L st.fullContent
  rw [p1] at this
  exact this

theorem demuxChunksOpenAI_ne (chunks : List (List Char)) :
    ∀ f ∈ (demuxChunksOpenAI chunks).2, f ≠ [] := by
  have hgen : ∀ (cs : List (List Char)) (acc : DemuxState × List (List Char)),
      (∀ f ∈ acc.2, f ≠ []) →
      ∀ f ∈ (cs.foldl (fun acc chunk =>
        let (st, frags) := feedChunkOpenAI acc.1 chunk
        (st, acc.2 ++ frags)) acc).2, f ≠ [] := by
    intro cs
    induction cs with
    | nil => intro acc hacc; exact hacc
    | cons chunk rest ih =>
      intro acc hacc
      rw [List.foldl_cons]
      have hne1 := feedChunkOpenAI_ne acc.1 chunk
      rcases hfc : feedChunkOpenAI acc.1 chunk with ⟨st1, f1⟩
      rw [hfc] at hne1
      dsimp only
      refine ih (st1, acc.2 ++ f1) ?_
      intro f hfm
      rcases List.mem_append.mp hfm with h | h
      · exact hacc f h
      · exact hne1 f h
  intro f hf
  exact hgen chunks (⟨[], []⟩, []) (by simp) f hf

theorem deltaContents_map (model : List Char) (frags : List (List Char))
    (h : ∀ f ∈ frags, f ≠ []) :
    deltaContents (frags.map (fun f => createStreamChunk model (some f) none)) =
      frags := by
  induction frags with
  | nil => rfl
  | cons f rest ih =>
    have hf : f ≠ [] := h f (List.mem_cons_self f rest)
    have hchunk : createStreamChunk model (some f) none =
        OpenAIStreamItem.chunk model (some f) none := by
      rw [createStreamChunk, if_neg hf]
    rw [List.map_cons, deltaContents, List.filterMap_cons, hchunk]
    dsimp only
    have ihh := ih (fun g hg => h g (List.mem_cons_of_mem f hg))
    rw [deltaContents] at ihh
    rw [ihh]

/-- C4: every fragment becomes one delta-chunk record carrying it as
incremental content (so the concatenated `delta.content` payloads equal
the concatenated fragments), followed by exactly one terminal chunk with a
`finish_reason` and exactly one `[DONE]` sentinel, which is the last item
written before the sink is closed; the spec's three-fragment round trip
reassembles `Hello world`. -/
theorem c4_flat_delta_emitter :
    (∀ (model : List Char) (chunks : List (List Char)),
      handleStreamingResponse model chunks StreamOutcome.success =
        (((demuxChunksOpenAI chunks).2).map
            (fun f => createStreamChunk model (some f) none)
         ++ [createStreamChunk model none (some (chars "stop")),
             OpenAIStreamItem.doneSentinel], true))
    ∧ (∀ (model : List Char) (chunks : List (List Char)),
        deltaContents (handleStreamingResponse model chunks StreamOutcome.success).1 =
          (demuxChunksOpenAI chunks).2)
    ∧ (∀ (model : List Char) (chunks : List (List Char)),
        (handleStreamingResponse model chunks StreamOutcome.success).1.countP
          isFinishChunk = 1
        ∧ (handleStreamingResponse model chunks StreamOutcome.success).1.countP
          isDoneItem = 1
        ∧ (handleStreamingResponse model chunks StreamOutcome.success).1.getLast? =
          some OpenAIStreamItem.doneSentinel
        ∧ (handleStreamingResponse model chunks StreamOutcome.success).2 = true)
    ∧ (deltaContents
        (handleStreamingResponse (chars "advanced") [c34chunk]
          StreamOutcome.success).1).flatten = chars "Hello world" := by
  have hmain : ∀ (model : List Char) (chunks : List (List Char)),
      handleStreamingResponse model chunks StreamOutcome.success =
        (((demuxChunksOpenAI chunks).2).map
            (fun f => createStreamChunk model (some f) none)
         ++ [createStreamChunk model none (some (chars "stop")),
             OpenAIStreamItem.doneSentinel], true) := by
    intro model chunks
    rcases hd : demuxChunksOpenAI chunks with ⟨st, frags⟩
    rw [handleStreamingResponse, hd]
  refine ⟨hmain, ?_, ?_, by decide⟩
  · intro model chunks
    rw [hmain model chunks]
    dsimp only
    rw [deltaContents, List.filterMap_append]
    have h1 := deltaContents_map model (demuxChunksOpenAI chunks).2
      (demuxChunksOpenAI_ne chunks)
    rw [deltaContents] at h1
    rw [h1]
    simp [createStreamChunk]
  · intro model chunks
    rw [hmain model chunks]
    refine ⟨?_, ?_, ?_, rfl⟩
    · dsimp only
      rw [List.countP_append, List.countP_map]
      simp [Function.comp_def, createStreamChunk, isFinishChunk,
        List.countP_cons]
    · dsimp only
      rw [List.countP_append, List.countP_map]
      simp [Function.comp_def, createStreamChunk, isDoneItem, List.countP_cons]
    · dsimp only
      rw [List.getLast?_append]
      rfl

/-! ## C8: terminal sequence on upstream error -/

/-- C8: when the upstream stream fails mid-flight, both re-emitters still
write one complete protocol-correct terminal sequence and close the sink:
the typed-block emitter writes an `Error:` content delta then
`content_block_stop`, `message_delta`, `message_stop` (each exactly once,
`message_stop` last), and the flat-delta emitter writes the raw error
record then the terminal `finish_reason` chunk and the `[DONE]` sentinel
(last), in both cases ending the response. -/
theorem c8_error_terminal_sequence :
    (∀ (cid : Option (List Char)) (chunks : List (List Char)) (msg : List Char),
      processStream cid chunks (StreamOutcome.error msg) =
        ([createMessageStartEvent cid, createContentBlockStartEvent 0]
         ++ ((demuxChunks chunks).2).map (fun f => createContentBlockDeltaEvent f 0)
         ++ [createContentBlockDeltaEvent (chars "Error: " ++ msg) 0,
             createContentBlockStopEvent 0, createMessageDeltaEvent 0,
             createMessageStopEvent], true))
    ∧ (∀ (cid : Option (List Char)) (chunks : List (List Char)) (msg : List Char),
        (processStream cid chunks (StreamOutcome.error msg)).1.getLast? =
          some AnthropicEvent.messageStop
        ∧ (processStream cid chunks (StreamOutcome.error msg)).1.countP
            isContentBlockStop = 1
        ∧ (processStream cid chunks (StreamOutcome.error msg)).1.countP
            isMessageDelta = 1
        ∧ (processStream cid chunks (StreamOutcome.error msg)).1.countP
            isMessageStop = 1
        ∧ (processStream cid chunks (StreamOutcome.error msg)).2 = true)
    ∧ (∀ (model : List Char) (chunks : List (List Char)) (msg : List Char),
        handleStreamingResponse model chunks (StreamOutcome.error msg) =
          (((demuxChunksOpenAI chunks).2).map
              (fun f => createStreamChunk model (some f) none)
           ++ [OpenAIStreamItem.errorRecord (chars "Streaming error: " ++ msg)]
           ++ [createStreamChunk model none (some (chars "stop")),
               OpenAIStreamItem.doneSentinel], true))
    ∧ (∀ (model : List Char) (chunks : List (List Char)) (msg : List Char),
        (handleStreamingResponse model chunks (StreamOutcome.error msg)).1.getLast? =
          some OpenAIStreamItem.doneSentinel
        ∧ (handleStreamingResponse model chunks (StreamOutcome.error msg)).1.countP
            isFinishChunk = 1
        ∧ (handleStreamingResponse model chunks (StreamOutcome.error msg)).1.countP
            isDoneItem = 1
        ∧ (handleStreamingResponse model chunks (StreamOutcome.error msg)).2 = true) := by
  have hanth : ∀ (cid : Option (List Char)) (chunks : List (List Char))
      (msg : List Char),
      processStream cid chunks (StreamOutcome.error msg) =
        ([createMessageStartEvent cid, createContentBlockStartEvent 0]
         ++ ((demuxChunks chunks).2).map (fun f => createContentBlockDeltaEvent f 0)
         ++ [createContentBlockDeltaEvent (chars "Error: " ++ msg) 0,
             createContentBlockStopEvent 0, createMessageDeltaEvent 0,
             createMessageStopEvent], true) := by
    intro cid chunks msg
    rcases hd : demuxChunks chunks with ⟨st, frags⟩
    rw [processStream, hd]
  have hflat : ∀ (model : List Char) (chunks : List (List Char))
      (msg : List Char),
      handleStreamingResponse model chunks (StreamOutcome.error msg) =
        (((demuxChunksOpenAI chunks).2).map
            (fun f => createStreamChunk model (some f) none)
         ++ [OpenAIStreamItem.errorRecord (chars "Streaming error: " ++ msg)]
         ++ [createStreamChunk model none (some (chars "stop")),
             OpenAIStreamItem.doneSentinel], true) := by
    intro model chunks msg
    rcases hd : demuxChunksOpenAI chunks with ⟨st, frags⟩
    rw [handleStreamingResponse, hd]
  refine ⟨hanth, ?_, hflat, ?_⟩
  · intro cid chunks msg
    rw [hanth cid chunks msg]
    dsimp only
    refine ⟨?_, ?_, ?_, ?_, rfl⟩
    · rw [List.getLast?_append]
      rfl
    · rw [List.countP_append, List.countP_append, List.countP_map]
      simp [Function.comp_def, createContentBlockDeltaEvent,
        createMessageStartEvent, createContentBlockStartEvent,
        createContentBlockStopEvent, createMessageDeltaEvent,
        createMessageStopEvent, isContentBlockStop, List.countP_cons]
    · rw [List.countP_append, List.countP_append, List.countP_map]
      simp [Function.comp_def, createContentBlockDeltaEvent,
        createMessageStartEvent, createContentBlockStartEvent,
        createContentBlockStopEvent, createMessageDeltaEvent,
        createMessageStopEvent, isMessageDelta, List.countP_cons]
    · rw [List.countP_append, List.countP_append, List.countP_map]
      simp [Function.comp_def, createContentBlockDeltaEvent,
        createMessageStartEvent, createContentBlockStartEvent,
        createContentBlockStopEvent, createMessageDeltaEvent,
        createMessageStopEvent, isMessageStop, List.countP_cons]
  · intro model chunks msg
    rw [hflat model chunks msg]
    dsimp only
    refine ⟨?_, ?_, ?_, rfl⟩
    · rw [List.getLast?_append]
      rfl
    · rw [List.countP_append, List.countP_append, List.countP_map]
      simp [Function.comp_def, createStreamChunk, isFinishChunk,
        List.countP_cons]
    · rw [List.countP_append, List.countP_append, List.countP_map]
      simp [Function.comp_def, createStreamChunk, isDoneItem, List.countP_cons]

end Ydc
